import Mathlib

/-!
# Verification of `makecorner` (src/makecorner/makecorner.py)

Shallow embedding of the two functions of the repository:

* `getBounds` — median and floor-rank 5%/95% quantile half-widths of a
  1-D sample vector;
* `corner` — the corner-plot composer: an `ndim × ndim` grid of panels,
  1-D histograms on the diagonal and 2-D density panels (with optional
  KDE contour thresholds) on the lower triangle.

Python floats are modelled by `ℚ`.  The rank expression
`int(0.95*data.size)` of the source is embedded as the natural-number
division `19 * n / 20`: for every array size `n` below 2^40 the IEEE-754
double product `0.95 * n` rounds to a value whose truncation equals
`⌊19n/20⌋` (for multiples of 20 the product rounds to the exact integer,
and otherwise the exact value is at distance ≥ 1/20 from every integer,
far above the rounding error), and likewise `int(0.05*data.size)` equals
`n / 20`.

The plotting library (matplotlib) and the Gaussian KDE (scipy) are
external collaborators: the KDE is an abstract function parameter, and a
panel is modelled by the data the composer hands to the library —
subplot position, histogram bin edges, title triple, tick-label
suppression flags, axis labels and contour thresholds.
-/

namespace Makecorner

/-- `np.sort`: ascending sort of a 1-D array. -/
def npSort (l : List ℚ) : List ℚ := l.insertionSort (· ≤ ·)

/-- `np.median`: middle element of the sorted data for odd length,
mean of the two middle elements for even length. -/
def npMedian (data : List ℚ) : ℚ :=
  let s := npSort data
  if data.length % 2 = 1 then s.getD (data.length / 2) 0
  else (s.getD (data.length / 2 - 1) 0 + s.getD (data.length / 2) 0) / 2

/-- The statistical median of an already ascending-sorted vector, written
from the spec's words ("median is the statistical median of the vector"):
middle element for odd length, mean of the two middle elements for even
length.  Used to state the claims independently of `npSort`. -/
def medianOfSorted (s : List ℚ) : ℚ :=
  if s.length % 2 = 1 then s.getD (s.length / 2) 0
  else (s.getD (s.length / 2 - 1) 0 + s.getD (s.length / 2) 0) / 2

/-- `getBounds(data)` from the source:

```
data = np.array(data)
med = np.median(data)
upperLim = np.sort(data)[int(0.95*data.size)]
lowerLim = np.sort(data)[int(0.05*data.size)]
return med, upperLim - med, med - lowerLim
``` -/
def getBounds (data : List ℚ) : ℚ × ℚ × ℚ :=
  let med := npMedian data
  let upperLim := (npSort data).getD (19 * data.length / 20) 0
  let lowerLim := (npSort data).getD (data.length / 20) 0
  (med, upperLim - med, med - lowerLim)

/-- The sample vector `[1, 2, ..., 100]` of the spec's quantile example. -/
def oneToHundred : List ℚ := (List.range 100).map (fun i => ((i + 1 : ℕ) : ℚ))

/-- `np.linspace(lo, hi, num)`: `num` evenly spaced values from `lo` to
`hi`, both endpoints included (a single point `lo` when `num = 1`). -/
def linspace (lo hi : ℚ) (num : ℕ) : List ℚ :=
  if num = 1 then [lo]
  else (List.range num).map
    (fun (i : ℕ) => lo + (hi - lo) * (i : ℚ) / ((num : ℚ) - 1))

/-- `np.cumsum`. -/
def cumsum : List ℚ → List ℚ
  | [] => []
  | x :: xs => x :: (cumsum xs).map (fun y => x + y)

/-- `np.interp(x, xp, fp)` for increasing `xp`, with the two coordinate
arrays zipped into a list of `(xp, fp)` pairs: clamped to the first and
last `fp` value outside the `xp` range, linear interpolation between
adjacent points inside it. -/
def interp (x : ℚ) : List (ℚ × ℚ) → ℚ
  | [] => 0
  | [(_, f0)] => f0
  | (x0, f0) :: (x1, f1) :: rest =>
    if x ≤ x0 then f0
    else if x ≤ x1 then f0 + (f1 - f0) * (x - x0) / (x1 - x0)
    else interp x ((x1, f1) :: rest)

/-- `sorted_pdf = np.sort(pdf)[::-1]`: density values sorted descending. -/
def descSort (pdf : List ℚ) : List ℚ := (npSort pdf).reverse

/-- `cdf = np.cumsum(sorted_pdf); cdf /= cdf[-1]`: the cumulative sum of
the descending density values, normalized by its final entry. -/
def normCdf (pdf : List ℚ) : List ℚ :=
  let c := cumsum (descSort pdf)
  c.map (fun y => y / c.getLastD 0)

/-- The contour-threshold computation of `corner`:
`levels = [np.interp(l, cdf, sorted_pdf) for l in contour_levels]`,
handed to `ax.contour` as `np.sort(levels)` (ascending). -/
def contourLevelsCalc (pdf contour_levels : List ℚ) : List ℚ :=
  npSort (contour_levels.map (fun l =>
    interp l ((normCdf pdf).zip (descSort pdf))))

/-- One column of `plot_data`: samples, display bounds pair, axis label. -/
structure VariableSpec where
  data : List ℚ
  plot_bounds : ℚ × ℚ
  label : String
deriving DecidableEq

/-- Default used for out-of-range list indexing (never reached for the
indices `corner` generates). -/
def defaultVar : String × VariableSpec := ("", ⟨[], (0, 0), ""⟩)

/-- Which grid cell a panel occupies: `diag i` is the 1-D histogram of
variable `i`; `offdiag i j` pairs variable `i` (x-axis) with variable
`i + 1 + j` (y-axis), `j + 1` rows below the diagonal. -/
inductive PanelKind where
  | diag (i : ℕ)
  | offdiag (i j : ℕ)
deriving DecidableEq

/-- The observable content of one subplot: its 1-based position in the
`ndim × ndim` grid, its kind, the histogram bin edges handed to
`ax.hist` (diagonal panels), the credible-interval title triple, the
tick-label suppression flags, the axis labels, and the contour
thresholds handed to `ax.contour` (2-D panels). -/
structure Panel where
  pos : ℕ
  kind : PanelKind
  binEdges : List ℚ
  title : Option (ℚ × ℚ × ℚ)
  suppressYTicks : Bool
  yLabel : Option String
  xLabel : Option String
  suppressXTicks : Bool
  contours : Option (List ℚ)
deriving DecidableEq

def defaultPanel : Panel :=
  ⟨0, PanelKind.diag 0, [], none, false, none, none, false, none⟩

/-- `scipy.stats.gaussian_kde([xdata, ydata], **contour_kde_args)` is an
external collaborator consumed as a black box: a `Kde` value maps the two
sample vectors to the fitted joint density function. -/
abbrev Kde := List ℚ → List ℚ → ℚ × ℚ → ℚ

/-- `pdf = kde([X.reshape(-1), Y.reshape(-1)])` for
`X, Y = np.meshgrid(xgrid, ygrid)`: row-major, entry `m` holds the
density at `(xgrid[m % 100], ygrid[m / 100])`. -/
def gridPdf (f : ℚ × ℚ → ℚ) (xgrid ygrid : List ℚ) : List ℚ :=
  ygrid.flatMap (fun y => xgrid.map (fun x => f (x, y)))

/-- The diagonal subplot of column `i`:
`fig.add_subplot(ndim, ndim, 1+(ndim+1)*i)`, histogram with bin edges
`np.linspace(lo, hi, bins)`, title from `getBounds` when `show_bounds`,
y tick labels suppressed outside the first column, x label only for the
last variable, x tick labels suppressed otherwise. -/
def diagPanel (ndim i : ℕ) (v : VariableSpec) (bins : ℕ)
    (show_bounds : Bool) : Panel :=
  ⟨1 + (ndim + 1) * i,
   PanelKind.diag i,
   linspace v.plot_bounds.1 v.plot_bounds.2 bins,
   if show_bounds then some (getBounds v.data) else none,
   decide (i ≠ 0),
   none,
   if i = ndim - 1 then some v.label else none,
   decide (¬ i = ndim - 1),
   none⟩

/-- The 2-D subplot of column `i` at offset `j` below the diagonal:
`fig.add_subplot(ndim, ndim, 1+(ndim+1)*i + (j+1)*ndim)`, hexbin of
`(vI, vK)`, optional KDE contour thresholds over the 100×100 grid of the
two variables' display bounds, y label in the first column only, x label
on the bottommost row (`j = ndim - i - 2`) only, tick labels suppressed
elsewhere. -/
def offdiagPanel (kde : Kde) (ndim i j : ℕ) (vI vK : VariableSpec)
    (contour_levels : Option (List ℚ)) : Panel :=
  ⟨1 + (ndim + 1) * i + (j + 1) * ndim,
   PanelKind.offdiag i j,
   [],
   none,
   decide (i ≠ 0),
   if i = 0 then some vK.label else none,
   if j = ndim - i - 2 then some vI.label else none,
   decide (¬ j = ndim - i - 2),
   match contour_levels with
   | none => none
   | some lvls =>
       some (contourLevelsCalc
         (gridPdf (kde vI.data vK.data)
           (linspace vI.plot_bounds.1 vI.plot_bounds.2 100)
           (linspace vK.plot_bounds.1 vK.plot_bounds.2 100))
         lvls)⟩

/-- The corner-plot composer: for each column `i` of the ordered
collection, the diagonal histogram panel followed by the 2-D panels for
`keys[i+1:]`, in creation order.  Only the options that shape the
observables modelled here are threaded through (`bins`, `show_bounds`,
`contour_levels`); the purely stylistic options of the source (`color`,
`hist_alpha`, font sizes, `logscale`, `vmax`, `figsize`, `hspace`,
`wspace`, `contour_plot_args`) set rendering attributes of the same
panels and `contour_kde_args` is absorbed into the abstract `Kde`. -/
def corner (kde : Kde) (plot_data : List (String × VariableSpec))
    (bins : ℕ) (show_bounds : Bool) (contour_levels : Option (List ℚ)) :
    List Panel :=
  let ndim := plot_data.length
  (List.range ndim).flatMap (fun i =>
    diagPanel ndim i (plot_data.getD i defaultVar).2 bins show_bounds ::
      (List.range (ndim - 1 - i)).map (fun j =>
        offdiagPanel kde ndim i j (plot_data.getD i defaultVar).2
          (plot_data.getD (i + 1 + j) defaultVar).2 contour_levels))

/-- A small concrete three-variable plot collection for witnesses. -/
def pdW : List (String × VariableSpec) :=
  [("x", ⟨[1, 2], (0, 3), "x"⟩), ("y", ⟨[2, 3], (0, 4), "y"⟩),
   ("z", ⟨[1, 3], (0, 5), "z"⟩)]

/-- A concrete stand-in for the external KDE, used by witnesses. -/
def kdeW : Kde := fun _ _ _ => 1

/-- The density-grid evaluation of the contour branch for the 2-D panel
of column `i` and offset `j`: the KDE of the joint sample pair,
evaluated on the 100×100 meshgrid spanning both variables' display
bounds. -/
def panelPdf (kde : Kde) (pd : List (String × VariableSpec)) (i j : ℕ) :
    List ℚ :=
  gridPdf (kde (pd.getD i defaultVar).2.data
      (pd.getD (i + 1 + j) defaultVar).2.data)
    (linspace (pd.getD i defaultVar).2.plot_bounds.1
      (pd.getD i defaultVar).2.plot_bounds.2 100)
    (linspace (pd.getD (i + 1 + j) defaultVar).2.plot_bounds.1
      (pd.getD (i + 1 + j) defaultVar).2.plot_bounds.2 100)

def isDiagPanel (p : Panel) : Bool :=
  match p.kind with
  | PanelKind.diag _ => true
  | PanelKind.offdiag _ _ => false

def isOffdiagPanel (p : Panel) : Bool :=
  match p.kind with
  | PanelKind.diag _ => false
  | PanelKind.offdiag _ _ => true

/-- Grid row (0-based, top to bottom) of 1-based subplot position `pos`
in an `ndim × ndim` grid. -/
def rowOf (ndim pos : ℕ) : ℕ := (pos - 1) / ndim

/-- Grid column (0-based, left to right) of 1-based subplot position
`pos` in an `ndim × ndim` grid. -/
def colOf (ndim pos : ℕ) : ℕ := (pos - 1) % ndim

/-- A store of allocated numpy arrays; a reference is an index into it.
Used to make the allocation behaviour of the source explicit, so that
absence of in-place mutation is a provable frame property rather than a
by-construction artefact of a pure embedding. -/
abbrev Store := List (List ℚ)

/-- Read the array behind reference `r`. -/
def readArr (σ : Store) (r : ℕ) : List ℚ := σ.getD r []

/-- Allocate a fresh array: the extended store and the new reference. -/
def alloc (σ : Store) (v : List ℚ) : Store × ℕ := (σ ++ [v], σ.length)

/-- Store-passing `getBounds`: `data = np.array(data)` allocates a fresh
copy of the caller's array, and each of the two `np.sort(data)` calls
allocates a new sorted array; no existing store entry is written. -/
def getBoundsSt (σ : Store) (r : ℕ) : Store × (ℚ × ℚ × ℚ) :=
  let a1 := alloc σ (readArr σ r)
  let σ1 := a1.1
  let d := a1.2
  let med := npMedian (readArr σ1 d)
  let a2 := alloc σ1 (npSort (readArr σ1 d))
  let σ2 := a2.1
  let upperLim := (readArr σ2 a2.2).getD (19 * (readArr σ2 d).length / 20) 0
  let a3 := alloc σ2 (npSort (readArr σ2 d))
  let σ3 := a3.1
  let lowerLim := (readArr σ3 a3.2).getD ((readArr σ3 d).length / 20) 0
  (σ3, (med, upperLim - med, med - lowerLim))

/-- A data column whose sample vector lives in the store. -/
structure VariableRef where
  dataRef : ℕ
  plot_bounds : ℚ × ℚ
  label : String

def defaultVarRef : String × VariableRef := ("", ⟨0, (0, 0), ""⟩)

/-- The value of a store-resident column. -/
def specOf (σ : Store) (v : VariableRef) : VariableSpec :=
  ⟨readArr σ v.dataRef, v.plot_bounds, v.label⟩

/-- Store-passing diagonal panel: invokes `getBoundsSt` (which
allocates) exactly when `show_bounds` is set, as the source does. -/
def diagPanelSt (σ : Store) (ndim i : ℕ) (v : VariableRef) (bins : ℕ)
    (show_bounds : Bool) : Store × Panel :=
  if show_bounds then
    let gb := getBoundsSt σ v.dataRef
    (gb.1,
     ⟨1 + (ndim + 1) * i, PanelKind.diag i,
      linspace v.plot_bounds.1 v.plot_bounds.2 bins, some gb.2,
      decide (i ≠ 0), none,
      if i = ndim - 1 then some v.label else none,
      decide (¬ i = ndim - 1), none⟩)
  else
    (σ,
     ⟨1 + (ndim + 1) * i, PanelKind.diag i,
      linspace v.plot_bounds.1 v.plot_bounds.2 bins, none,
      decide (i ≠ 0), none,
      if i = ndim - 1 then some v.label else none,
      decide (¬ i = ndim - 1), none⟩)

/-- One column of the store-passing composer's loop: the diagonal panel
(threading the store through `getBoundsSt`) followed by the column's 2-D
panels, whose sample arrays are read from the store. -/
def cornerStep (kde : Kde) (plot_data : List (String × VariableRef))
    (bins : ℕ) (show_bounds : Bool) (contour_levels : Option (List ℚ))
    (acc : Store × List Panel) (i : ℕ) : Store × List Panel :=
  let v := (plot_data.getD i defaultVarRef).2
  let dp := diagPanelSt acc.1 plot_data.length i v bins show_bounds
  (dp.1,
   acc.2 ++ dp.2 ::
     (List.range (plot_data.length - 1 - i)).map (fun j =>
       offdiagPanel kde plot_data.length i j (specOf dp.1 v)
         (specOf dp.1 (plot_data.getD (i + 1 + j) defaultVarRef).2)
         contour_levels))

/-- Store-passing corner composer: reads every column from the store,
threads the store through the `getBoundsSt` title computations of the
diagonal panels, and reads (never writes) the sample arrays for the 2-D
panels. -/
def cornerSt (kde : Kde) (plot_data : List (String × VariableRef))
    (bins : ℕ) (show_bounds : Bool) (contour_levels : Option (List ℚ))
    (σ : Store) : Store × List Panel :=
  (List.range plot_data.length).foldl
    (cornerStep kde plot_data bins show_bounds contour_levels) (σ, [])

/-- The panels of one column of `corner`, built from the values a store
`σ0` holds; used to relate `cornerSt` to the pure `corner`. -/
def cornerBlock (kde : Kde) (pd : List (String × VariableRef))
    (bins : ℕ) (sb : Bool) (lvls : Option (List ℚ)) (σ0 : Store)
    (i : ℕ) : List Panel :=
  diagPanel pd.length i (specOf σ0 (pd.getD i defaultVarRef).2) bins sb ::
    (List.range (pd.length - 1 - i)).map (fun j =>
      offdiagPanel kde pd.length i j
        (specOf σ0 (pd.getD i defaultVarRef).2)
        (specOf σ0 (pd.getD (i + 1 + j) defaultVarRef).2) lvls)

end Makecorner

namespace Makecorner

theorem npSort_sorted (l : List ℚ) : (npSort l).Sorted (· ≤ ·) :=
  List.sorted_insertionSort _ l

theorem npSort_perm (l : List ℚ) : List.Perm (npSort l) l :=
  List.perm_insertionSort _ l

theorem npSort_length (l : List ℚ) : (npSort l).length = l.length :=
  (npSort_perm l).length_eq

/-- Any ascending-sorted permutation of the data is the `np.sort` of it. -/
theorem npSort_eq_of_sorted_perm (data s : List ℚ) (hs : s.Sorted (· ≤ ·))
    (hp : List.Perm data s) : npSort data = s :=
  List.eq_of_perm_of_sorted ((npSort_perm data).trans hp) (npSort_sorted data) hs

theorem sorted_replicate (n : ℕ) (c : ℚ) : (List.replicate n c).Sorted (· ≤ ·) := by
  induction n with
  | zero => simp [List.Sorted]
  | succ m ih =>
    rw [List.replicate_succ]
    exact List.Pairwise.cons (fun b hb => le_of_eq (List.eq_of_mem_replicate hb).symm) ih

theorem sorted_getD_mono (l : List ℚ) (hl : l.Sorted (· ≤ ·)) {i j : ℕ}
    (hij : i ≤ j) (hj : j < l.length) : l.getD i 0 ≤ l.getD j 0 := by
  have hi : i < l.length := lt_of_le_of_lt hij hj
  rw [List.getD_eq_getElem?_getD, List.getElem?_eq_getElem hi,
    List.getD_eq_getElem?_getD, List.getElem?_eq_getElem hj]
  rcases eq_or_lt_of_le hij with rfl | hlt
  · simp
  · have := List.Sorted.rel_get_of_lt hl (a := ⟨i, hi⟩) (b := ⟨j, hj⟩)
      (Fin.mk_lt_mk.mpr hlt)
    simpa using this

end Makecorner

namespace Makecorner

/-- **C1.** For every non-empty sample vector, `getBounds` returns
`(median, upper_width, lower_width)` where `median` is the statistical
median, `upper_width = s[⌊0.95 n⌋] - median` and
`lower_width = median - s[⌊0.05 n⌋]` with `s` the ascending-sorted vector
(0-indexed ranks, pure rank selection, no interpolation); in particular
`getBounds [1, 2, ..., 100] = (50.5, 45.5, 44.5)`. -/
theorem getBounds_rank_selection_c1 :
    (∀ (data s : List ℚ), data ≠ [] → s.Sorted (· ≤ ·) → List.Perm data s →
      getBounds data =
        (medianOfSorted s,
         s.getD (19 * data.length / 20) 0 - medianOfSorted s,
         medianOfSorted s - s.getD (data.length / 20) 0))
    ∧ getBounds oneToHundred = (101/2, 91/2, 89/2) := by
  have hgen : ∀ (data s : List ℚ), data ≠ [] → s.Sorted (· ≤ ·) → List.Perm data s →
      getBounds data =
        (medianOfSorted s,
         s.getD (19 * data.length / 20) 0 - medianOfSorted s,
         medianOfSorted s - s.getD (data.length / 20) 0) := by
    intro data s _ hs hp
    have hsort : npSort data = s := npSort_eq_of_sorted_perm data s hs hp
    have hlen : s.length = data.length := by rw [← hsort, npSort_length]
    unfold getBounds npMedian medianOfSorted
    rw [hsort, hlen]
  refine ⟨hgen, ?_⟩
  have hsorted : oneToHundred.Sorted (· ≤ ·) := by decide
  have h := hgen oneToHundred oneToHundred (by decide) hsorted (List.Perm.refl _)
  rw [h]
  have hlen : oneToHundred.length = 100 := by decide
  have h49 : oneToHundred[49]?.getD 0 = 50 := by decide
  have h50 : oneToHundred[50]?.getD 0 = 51 := by decide
  have h95 : oneToHundred[95]?.getD 0 = 96 := by decide
  have h5 : oneToHundred[5]?.getD 0 = 6 := by decide
  have hmed : medianOfSorted oneToHundred = 101 / 2 := by
    unfold medianOfSorted
    rw [hlen]
    norm_num [h49, h50]
  rw [hlen, hmed]
  norm_num [h95, h5]

/-- Witness for C1 at the concrete vector `[3, 1, 2]`. -/
theorem getBounds_rank_selection_c1_witness :
    getBounds [(3 : ℚ), 1, 2] = (2, 1, 1) := by
  have h := getBounds_rank_selection_c1.1 [(3 : ℚ), 1, 2] [1, 2, 3]
    (by decide) (by decide) (by decide)
  rw [h]
  norm_num [medianOfSorted]

/-- **C2.** For every non-empty sample vector (including sizes 1..5), the
upper and lower widths of `getBounds` are both nonnegative; equivalently
the sorted value at rank `⌊0.95 n⌋` is at least the median and the sorted
value at rank `⌊0.05 n⌋` is at most the median. -/
theorem getBounds_widths_nonneg_c2 (data : List ℚ) (hne : data ≠ []) :
    0 ≤ (getBounds data).2.1 ∧ 0 ≤ (getBounds data).2.2
    ∧ npMedian data ≤ (npSort data).getD (19 * data.length / 20) 0
    ∧ (npSort data).getD (data.length / 20) 0 ≤ npMedian data := by
  have hn : 1 ≤ data.length := by
    cases data with
    | nil => exact absurd rfl hne
    | cons a l => exact Nat.succ_le_succ (Nat.zero_le _)
  set n := data.length with hdef
  have hlen : (npSort data).length = n := npSort_length data
  have hs := npSort_sorted data
  have hup : npMedian data ≤ (npSort data).getD (19 * n / 20) 0 := by
    unfold npMedian
    rw [← hdef]
    split
    · exact sorted_getD_mono _ hs (by omega) (by omega)
    · have h1 : (npSort data).getD (n / 2 - 1) 0 ≤ (npSort data).getD (19 * n / 20) 0 :=
        sorted_getD_mono _ hs (by omega) (by omega)
      have h2 : (npSort data).getD (n / 2) 0 ≤ (npSort data).getD (19 * n / 20) 0 :=
        sorted_getD_mono _ hs (by omega) (by omega)
      linarith
  have hlo : (npSort data).getD (n / 20) 0 ≤ npMedian data := by
    unfold npMedian
    rw [← hdef]
    split
    · exact sorted_getD_mono _ hs (by omega) (by omega)
    · have h1 : (npSort data).getD (n / 20) 0 ≤ (npSort data).getD (n / 2 - 1) 0 :=
        sorted_getD_mono _ hs (by omega) (by omega)
      have h2 : (npSort data).getD (n / 20) 0 ≤ (npSort data).getD (n / 2) 0 :=
        sorted_getD_mono _ hs (by omega) (by omega)
      linarith
  refine ⟨?_, ?_, hup, hlo⟩
  · show (0 : ℚ) ≤ (npSort data).getD (19 * n / 20) 0 - npMedian data
    linarith
  · show (0 : ℚ) ≤ npMedian data - (npSort data).getD (n / 20) 0
    linarith

/-- Witness for C2 at the size-3 vector `[5, 1, 4]`. -/
theorem getBounds_widths_nonneg_c2_witness :
    0 ≤ (getBounds [(5 : ℚ), 1, 4]).2.1 ∧ 0 ≤ (getBounds [(5 : ℚ), 1, 4]).2.2
    ∧ npMedian [(5 : ℚ), 1, 4] ≤ (npSort [(5 : ℚ), 1, 4]).getD (19 * 3 / 20) 0
    ∧ (npSort [(5 : ℚ), 1, 4]).getD (3 / 20) 0 ≤ npMedian [(5 : ℚ), 1, 4] :=
  getBounds_widths_nonneg_c2 [(5 : ℚ), 1, 4] (by decide)

/-- **C9.** `getBounds` is permutation-invariant: permuting the sample
vector does not change the returned triple. -/
theorem getBounds_perm_invariant_c9 (d₁ d₂ : List ℚ) (hp : List.Perm d₁ d₂) :
    getBounds d₁ = getBounds d₂ := by
  have hsort : npSort d₁ = npSort d₂ :=
    List.eq_of_perm_of_sorted
      ((npSort_perm d₁).trans (hp.trans (npSort_perm d₂).symm))
      (npSort_sorted d₁) (npSort_sorted d₂)
  have hlen : d₁.length = d₂.length := hp.length_eq
  unfold getBounds npMedian
  rw [hsort, hlen]

/-- Witness for C9: a permutation of `[3, 1, 2]`. -/
theorem getBounds_perm_invariant_c9_witness :
    getBounds [(3 : ℚ), 1, 2] = getBounds [(2 : ℚ), 3, 1] :=
  getBounds_perm_invariant_c9 _ _ (by decide)

/-- **C10.** On a constant vector of any positive length, `getBounds`
returns exactly `(c, 0, 0)`. -/
theorem getBounds_constant_c10 (c : ℚ) (n : ℕ) (hn : 1 ≤ n) :
    getBounds (List.replicate n c) = (c, 0, 0) := by
  have hsort : npSort (List.replicate n c) = List.replicate n c :=
    npSort_eq_of_sorted_perm _ _ (sorted_replicate n c) (List.Perm.refl _)
  have hgetD : ∀ i, i < n → (List.replicate n c).getD i 0 = c := by
    intro i hi
    rw [List.getD_eq_getElem?_getD, List.getElem?_eq_getElem (by simpa using hi)]
    simp
  have hlen : (List.replicate n c).length = n := List.length_replicate n c
  unfold getBounds npMedian
  rw [hsort, hlen]
  have hmed : (if n % 2 = 1 then (List.replicate n c).getD (n / 2) 0
      else ((List.replicate n c).getD (n / 2 - 1) 0 + (List.replicate n c).getD (n / 2) 0) / 2) = c := by
    split
    · exact hgetD _ (by omega)
    · rw [hgetD _ (by omega), hgetD _ (by omega)]; ring
  rw [hmed, hgetD _ (by omega), hgetD _ (by omega)]
  simp

/-- Witness for C10 at `c = 5`, `n = 4`. -/
theorem getBounds_constant_c10_witness :
    getBounds (List.replicate 4 (5 : ℚ)) = (5, 0, 0) :=
  getBounds_constant_c10 5 4 (by decide)

end Makecorner

namespace Makecorner

theorem countP_flatMap (p : Panel → Bool) (f : ℕ → List Panel) (l : List ℕ) :
    (l.flatMap f).countP p = (l.map (fun a => (f a).countP p)).sum := by
  induction l with
  | nil => simp
  | cons a t ih => simp [List.flatMap_cons, List.countP_append, ih]

theorem sum_map_range (f : ℕ → ℕ) (n : ℕ) :
    ((List.range n).map f).sum = ∑ i in Finset.range n, f i := by
  induction n with
  | zero => simp
  | succ m ih =>
    rw [List.range_succ, List.map_append, List.sum_append,
      Finset.sum_range_succ, ih]
    simp

theorem sum_range_pred_sub (N : ℕ) :
    ∑ i in Finset.range N, (N - 1 - i) = N * (N - 1) / 2 := by
  have h := Finset.sum_range_reflect (fun i => N - 1 - i) N
  have h2 : ∑ j in Finset.range N, (N - 1 - (N - 1 - j))
      = ∑ j in Finset.range N, j :=
    Finset.sum_congr rfl (fun j hj => by rw [Finset.mem_range] at hj; omega)
  rw [h2] at h
  have h3 := Finset.sum_range_id_mul_two N
  omega

theorem rowcol_diag (N i : ℕ) (hi : i < N) :
    rowOf N (1 + (N + 1) * i) = i ∧ colOf N (1 + (N + 1) * i) = i := by
  have hN : 0 < N := by omega
  have e : 1 + (N + 1) * i - 1 = i + i * N := by
    have : (N + 1) * i = i + i * N := by ring
    omega
  constructor
  · rw [rowOf, e, Nat.add_mul_div_right _ _ hN, Nat.div_eq_of_lt hi]
    omega
  · rw [colOf, e, Nat.add_mul_mod_self_right, Nat.mod_eq_of_lt hi]

theorem rowcol_offdiag (N i j : ℕ) (hi : i < N) (hj : j < N - 1 - i) :
    rowOf N (1 + (N + 1) * i + (j + 1) * N) = i + j + 1
    ∧ colOf N (1 + (N + 1) * i + (j + 1) * N) = i := by
  have hN : 0 < N := by omega
  have e : 1 + (N + 1) * i + (j + 1) * N - 1 = i + (i + j + 1) * N := by
    have h1 : (N + 1) * i = i + i * N := by ring
    have h3 : (i + j + 1) * N = i * N + j * N + N := by ring
    have h2 : (j + 1) * N = j * N + N := by ring
    omega
  have hiN : i < N := hi
  constructor
  · rw [rowOf, e, Nat.add_mul_div_right _ _ hN, Nat.div_eq_of_lt hiN]
    omega
  · rw [colOf, e, Nat.add_mul_mod_self_right, Nat.mod_eq_of_lt hiN]

/-- Deconstruction of membership in the panel list of `corner`. -/
theorem mem_corner (kde : Kde) (pd : List (String × VariableSpec))
    (bins : ℕ) (sb : Bool) (lvls : Option (List ℚ)) {p : Panel}
    (hp : p ∈ corner kde pd bins sb lvls) :
    ∃ i, i < pd.length ∧
      (p = diagPanel pd.length i (pd.getD i defaultVar).2 bins sb ∨
       ∃ j, j < pd.length - 1 - i ∧
         p = offdiagPanel kde pd.length i j (pd.getD i defaultVar).2
               (pd.getD (i + 1 + j) defaultVar).2 lvls) := by
  simp only [corner] at hp
  rw [List.mem_flatMap] at hp
  obtain ⟨i, hi, hmem⟩ := hp
  rw [List.mem_range] at hi
  rcases List.mem_cons.mp hmem with h | h
  · exact ⟨i, hi, Or.inl h⟩
  · rw [List.mem_map] at h
    obtain ⟨j, hj, rfl⟩ := h
    exact ⟨i, hi, Or.inr ⟨j, List.mem_range.mp hj, rfl⟩⟩

end Makecorner

namespace Makecorner

/-- **C4.** For `N` variables, `corner` populates exactly `N` diagonal
panels (the panel of kind `diag i` sits in cell `(i, i)`), exactly
`N*(N-1)/2` lower-triangular 2-D panels (kind `offdiag i j` sits in row
`i+j+1`, column `i`, below the diagonal), a total of `N + N*(N-1)/2`
axes, and no panel occupies an upper-triangular cell. -/
theorem corner_grid_c4 (kde : Kde) (pd : List (String × VariableSpec))
    (bins : ℕ) (sb : Bool) (lvls : Option (List ℚ)) :
    (corner kde pd bins sb lvls).countP isDiagPanel = pd.length
    ∧ (corner kde pd bins sb lvls).countP isOffdiagPanel
        = pd.length * (pd.length - 1) / 2
    ∧ (corner kde pd bins sb lvls).length
        = pd.length + pd.length * (pd.length - 1) / 2
    ∧ (∀ p ∈ corner kde pd bins sb lvls,
        colOf pd.length p.pos ≤ rowOf pd.length p.pos
        ∧ rowOf pd.length p.pos < pd.length
        ∧ (∀ i, p.kind = PanelKind.diag i →
            rowOf pd.length p.pos = i ∧ colOf pd.length p.pos = i)
        ∧ (∀ i j, p.kind = PanelKind.offdiag i j →
            rowOf pd.length p.pos = i + j + 1
            ∧ colOf pd.length p.pos = i)) := by
  set N := pd.length with hN
  refine ⟨?_, ?_, ?_, ?_⟩
  · simp only [corner, ← hN]
    rw [countP_flatMap]
    have hb : ∀ i : ℕ,
        ((diagPanel N i (pd.getD i defaultVar).2 bins sb ::
          (List.range (N - 1 - i)).map (fun j =>
            offdiagPanel kde N i j (pd.getD i defaultVar).2
              (pd.getD (i + 1 + j) defaultVar).2 lvls)).countP isDiagPanel) = 1 := by
      intro i
      simp [List.countP_cons, List.countP_map, isDiagPanel, offdiagPanel,
        diagPanel, Function.comp]
    rw [List.map_congr_left (fun i _ => hb i), sum_map_range]
    simp
  · simp only [corner, ← hN]
    rw [countP_flatMap]
    have hb : ∀ i : ℕ,
        ((diagPanel N i (pd.getD i defaultVar).2 bins sb ::
          (List.range (N - 1 - i)).map (fun j =>
            offdiagPanel kde N i j (pd.getD i defaultVar).2
              (pd.getD (i + 1 + j) defaultVar).2 lvls)).countP isOffdiagPanel)
          = N - 1 - i := by
      intro i
      simp [List.countP_cons, List.countP_map, isOffdiagPanel, offdiagPanel,
        diagPanel, Function.comp_def, List.countP_true]
    rw [List.map_congr_left (fun i _ => hb i), sum_map_range, sum_range_pred_sub]
  · simp only [corner, ← hN]
    rw [List.length_flatMap]
    have hb : ∀ i : ℕ,
        ((diagPanel N i (pd.getD i defaultVar).2 bins sb ::
          (List.range (N - 1 - i)).map (fun j =>
            offdiagPanel kde N i j (pd.getD i defaultVar).2
              (pd.getD (i + 1 + j) defaultVar).2 lvls)).length)
          = 1 + (N - 1 - i) := by
      intro i
      simp
      omega
    simp only [Function.comp_def]
    rw [List.map_congr_left (fun i _ => hb i), sum_map_range]
    rw [Finset.sum_add_distrib, sum_range_pred_sub]
    simp
  · intro p hp
    obtain ⟨i, hi, hcase | ⟨j, hj, hcase⟩⟩ := mem_corner kde pd bins sb lvls hp
    · have hpos : p.pos = 1 + (N + 1) * i := by rw [hcase]; rfl
      have hkind : p.kind = PanelKind.diag i := by rw [hcase]; rfl
      obtain ⟨hrow, hcol⟩ := rowcol_diag N i hi
      rw [hpos, hkind]
      refine ⟨by rw [hrow, hcol], by rw [hrow]; exact hi, ?_, ?_⟩
      · intro i' hi'
        obtain rfl : i = i' := by injection hi'
        exact ⟨hrow, hcol⟩
      · intro i' j' hij'
        cases hij'
    · have hpos : p.pos = 1 + (N + 1) * i + (j + 1) * N := by rw [hcase]; rfl
      have hkind : p.kind = PanelKind.offdiag i j := by rw [hcase]; rfl
      obtain ⟨hrow, hcol⟩ := rowcol_offdiag N i j hi hj
      rw [hpos, hkind]
      refine ⟨by rw [hrow, hcol]; omega, by rw [hrow]; omega, ?_, ?_⟩
      · intro i' hi'
        cases hi'
      · intro i' j' hij'
        obtain ⟨rfl, rfl⟩ : i = i' ∧ j = j' := by
          injection hij' with h1 h2
          exact ⟨h1, h2⟩
        exact ⟨hrow, hcol⟩

/-- Witness for C4 on a concrete three-variable collection. -/
theorem corner_grid_c4_witness :
    ((corner (fun _ _ _ => 0)
        [("x", ⟨[1, 2], (0, 3), "x"⟩), ("y", ⟨[2, 3], (0, 4), "y"⟩),
         ("z", ⟨[1, 3], (0, 5), "z"⟩)] 4 false none).countP isDiagPanel = 3)
    ∧ ((corner (fun _ _ _ => 0)
        [("x", ⟨[1, 2], (0, 3), "x"⟩), ("y", ⟨[2, 3], (0, 4), "y"⟩),
         ("z", ⟨[1, 3], (0, 5), "z"⟩)] 4 false none).length = 3 + 3) := by
  have h := corner_grid_c4 (fun _ _ _ => 0)
    [("x", ⟨[1, 2], (0, 3), "x"⟩), ("y", ⟨[2, 3], (0, 4), "y"⟩),
     ("z", ⟨[1, 3], (0, 5), "z"⟩)] 4 false none
  exact ⟨h.1, h.2.2.1⟩

end Makecorner

namespace Makecorner

theorem linspace_length (lo hi : ℚ) (num : ℕ) :
    (linspace lo hi num).length = num := by
  unfold linspace
  split
  · simp [*]
  · rw [List.length_map, List.length_range]

theorem linspace_getD (lo hi : ℚ) (num k : ℕ) (h2 : 2 ≤ num) (hk : k < num) :
    (linspace lo hi num).getD k 0 = lo + (hi - lo) * k / ((num : ℚ) - 1) := by
  unfold linspace
  rw [if_neg (by omega)]
  have hk' : k < ((List.range num).map
      (fun (i : ℕ) => lo + (hi - lo) * (i : ℚ) / ((num : ℚ) - 1))).length := by
    rw [List.length_map, List.length_range]
    exact hk
  rw [List.getD_eq_getElem?_getD, List.getElem?_eq_getElem hk',
    Option.getD_some, List.getElem_map, List.getElem_range]

theorem linspace_step (lo hi : ℚ) (num k : ℕ) (h2 : 2 ≤ num)
    (hk : k + 1 < num) :
    (linspace lo hi num).getD (k + 1) 0 - (linspace lo hi num).getD k 0
      = (hi - lo) / ((num : ℚ) - 1) := by
  rw [linspace_getD lo hi num (k + 1) h2 hk,
    linspace_getD lo hi num k h2 (by omega)]
  have hden : ((num : ℚ) - 1) ≠ 0 := by
    have h : (2 : ℚ) ≤ (num : ℚ) := by exact_mod_cast h2
    linarith
  push_cast
  field_simp
  ring

/-- **C7.** y tick labels are suppressed exactly on the panels whose
column is not 0 (first-column 2-D panels carry the row variable's
y-axis label); the x-axis label appears only on the bottommost populated
panel of each column — the diagonal panel of the last variable, or the
2-D panel at offset `j = N - i - 2` — and x tick labels are suppressed
exactly on the panels without an x-axis label. -/
theorem corner_axes_c7 (kde : Kde) (pd : List (String × VariableSpec))
    (bins : ℕ) (sb : Bool) (lvls : Option (List ℚ)) :
    ∀ p ∈ corner kde pd bins sb lvls,
      (∀ i, p.kind = PanelKind.diag i →
        (p.suppressYTicks = true ↔ i ≠ 0)
        ∧ p.yLabel = none
        ∧ (p.xLabel = if i = pd.length - 1
            then some (pd.getD i defaultVar).2.label else none)
        ∧ (p.suppressXTicks = true ↔ p.xLabel = none))
      ∧ (∀ i j, p.kind = PanelKind.offdiag i j →
        (p.suppressYTicks = true ↔ i ≠ 0)
        ∧ (p.yLabel = if i = 0
            then some (pd.getD (i + 1 + j) defaultVar).2.label else none)
        ∧ (p.xLabel = if j = pd.length - i - 2
            then some (pd.getD i defaultVar).2.label else none)
        ∧ (p.suppressXTicks = true ↔ p.xLabel = none)) := by
  intro p hp
  obtain ⟨i, hi, hcase | ⟨j, hj, hcase⟩⟩ := mem_corner kde pd bins sb lvls hp
  · subst hcase
    constructor
    · intro i' hi'
      obtain rfl : i = i' := by injection hi'
      refine ⟨by simp [diagPanel], rfl, rfl, ?_⟩
      by_cases h : i = pd.length - 1 <;> simp [diagPanel, h]
    · intro i' j' h
      exact absurd h (by simp [diagPanel])
  · subst hcase
    constructor
    · intro i' h
      exact absurd h (by simp [offdiagPanel])
    · intro i' j' h
      obtain ⟨rfl, rfl⟩ : i = i' ∧ j = j' := by
        injection h with h1 h2
        exact ⟨h1, h2⟩
      refine ⟨by simp [offdiagPanel], rfl, rfl, ?_⟩
      by_cases h2 : j = pd.length - i - 2 <;> simp [offdiagPanel, h2]

/-- Witness for C7 at the first 2-D panel of the concrete collection. -/
theorem corner_axes_c7_witness :
    ((offdiagPanel kdeW 3 0 0 ⟨[1, 2], (0, 3), "x"⟩ ⟨[2, 3], (0, 4), "y"⟩
        none).suppressYTicks = true ↔ (0 : ℕ) ≠ 0)
    ∧ ((offdiagPanel kdeW 3 0 0 ⟨[1, 2], (0, 3), "x"⟩ ⟨[2, 3], (0, 4), "y"⟩
        none).yLabel = if (0 : ℕ) = 0
          then some (pdW.getD (0 + 1 + 0) defaultVar).2.label else none)
    ∧ ((offdiagPanel kdeW 3 0 0 ⟨[1, 2], (0, 3), "x"⟩ ⟨[2, 3], (0, 4), "y"⟩
        none).xLabel = if (0 : ℕ) = pdW.length - 0 - 2
          then some (pdW.getD 0 defaultVar).2.label else none)
    ∧ ((offdiagPanel kdeW 3 0 0 ⟨[1, 2], (0, 3), "x"⟩ ⟨[2, 3], (0, 4), "y"⟩
        none).suppressXTicks = true
      ↔ (offdiagPanel kdeW 3 0 0 ⟨[1, 2], (0, 3), "x"⟩ ⟨[2, 3], (0, 4), "y"⟩
        none).xLabel = none) :=
  (corner_axes_c7 kdeW pdW 1 false none
    (offdiagPanel kdeW 3 0 0 ⟨[1, 2], (0, 3), "x"⟩ ⟨[2, 3], (0, 4), "y"⟩ none)
    (by decide)).2 0 0 rfl

/-- **C3 counterexample.** With `bins = 10`, the diagonal histogram of a
concrete collection receives 10 bin edges, not `bins + 1 = 11`: the code
passes `np.linspace(lo, hi, bins)`, whose point count is `bins`. -/
theorem corner_bin_edges_c3_counterexample :
    ((corner kdeW pdW 10 false none).getD 0 defaultPanel).kind
        = PanelKind.diag 0
    ∧ ((corner kdeW pdW 10 false none).getD 0 defaultPanel).binEdges.length
        = 10
    ∧ (10 : ℕ) ≠ 10 + 1 := by
  refine ⟨by decide, ?_, by decide⟩
  have h : (corner kdeW pdW 10 false none).getD 0 defaultPanel
      = diagPanel 3 0 ⟨[1, 2], (0, 3), "x"⟩ 10 false := rfl
  rw [h]
  show (linspace 0 3 10).length = 10
  exact linspace_length 0 3 10

/-- **C3 (amended).** Each diagonal panel's bin edges are evenly spaced
across the variable's display bounds at resolution `bins`, but the edge
count equals `bins` — not `bins + 1` — (so `bins = 10` renders 9 bins and
`bins = 50` renders 49), with the constant step `(hi - lo)/(bins - 1)`
between consecutive edges when `bins ≥ 2`; the quantile summary titles
are unchanged by `bins`. -/
theorem corner_bin_edges_c3_amended (kde : Kde)
    (pd : List (String × VariableSpec)) (bins bins' : ℕ) (sb : Bool)
    (lvls : Option (List ℚ)) :
    (∀ p ∈ corner kde pd bins sb lvls, ∀ i, p.kind = PanelKind.diag i →
      p.binEdges = linspace (pd.getD i defaultVar).2.plot_bounds.1
          (pd.getD i defaultVar).2.plot_bounds.2 bins
      ∧ p.binEdges.length = bins
      ∧ (2 ≤ bins → ∀ k, k + 1 < bins →
          p.binEdges.getD (k + 1) 0 - p.binEdges.getD k 0
            = ((pd.getD i defaultVar).2.plot_bounds.2
                - (pd.getD i defaultVar).2.plot_bounds.1) / ((bins : ℚ) - 1)))
    ∧ (corner kde pd bins sb lvls).map Panel.title
        = (corner kde pd bins' sb lvls).map Panel.title := by
  constructor
  · intro p hp i' hkind
    obtain ⟨i, hi, hcase | ⟨j, hj, hcase⟩⟩ := mem_corner kde pd bins sb lvls hp
    · subst hcase
      obtain rfl : i = i' := by injection hkind
      refine ⟨rfl, linspace_length _ _ _, ?_⟩
      intro h2 k hk
      exact linspace_step _ _ _ _ h2 hk
    · subst hcase
      exact absurd hkind (by simp [offdiagPanel])
  · simp only [corner, List.map_flatMap, List.map_cons, List.map_map]
    rfl

/-- Witness for C3 (amended) at a concrete collection, `bins = 1` against
`bins' = 2`. -/
theorem corner_bin_edges_c3_amended_witness :
    (diagPanel 3 0 ⟨[1, 2], (0, 3), "x"⟩ 1 false).binEdges.length = 1
    ∧ (corner kdeW pdW 1 false none).map Panel.title
        = (corner kdeW pdW 2 false none).map Panel.title := by
  have h := corner_bin_edges_c3_amended kdeW pdW 1 2 false none
  exact ⟨(h.1 (diagPanel 3 0 ⟨[1, 2], (0, 3), "x"⟩ 1 false)
    (by decide) 0 rfl).2.1, h.2⟩

end Makecorner

namespace Makecorner

theorem getD_map_of_lt {α β : Type} (g : α → β) (l : List α) (k : ℕ)
    (d : α) (d' : β) (h : k < l.length) :
    (l.map g).getD k d' = g (l.getD k d) := by
  rw [List.getD_eq_getElem?_getD, List.getElem?_eq_getElem (by simpa using h),
    Option.getD_some, List.getElem_map]
  rw [List.getD_eq_getElem?_getD, List.getElem?_eq_getElem h, Option.getD_some]

theorem cumsum_length (l : List ℚ) : (cumsum l).length = l.length := by
  induction l with
  | nil => rfl
  | cons x xs ih => simp [cumsum, ih]

theorem cumsum_ne_nil (l : List ℚ) (h : l ≠ []) : cumsum l ≠ [] := by
  intro hc
  apply h
  have := cumsum_length l
  rw [hc] at this
  exact List.length_eq_zero.mp this.symm

theorem cumsum_getD (l : List ℚ) (k : ℕ) (hk : k < l.length) :
    (cumsum l).getD k 0 = (l.take (k + 1)).sum := by
  induction l generalizing k with
  | nil => cases hk
  | cons x xs ih =>
    cases k with
    | zero => simp [cumsum]
    | succ k' =>
      have hk' : k' < xs.length := by simpa using hk
      show (x :: (cumsum xs).map (fun y => x + y)).getD (k' + 1) 0
        = ((x :: xs).take (k' + 2)).sum
      rw [List.getD_cons_succ,
        getD_map_of_lt _ _ _ 0 0 (by rw [cumsum_length]; exact hk'),
        ih k' hk', List.take_succ_cons, List.sum_cons]

theorem getLastD_eq_getD (l : List ℚ) (h : l ≠ []) :
    l.getLastD 0 = l.getD (l.length - 1) 0 := by
  rw [List.getLastD_eq_getLast?, List.getLast?_eq_getElem?,
    List.getD_eq_getElem?_getD]

theorem cumsum_getLastD (l : List ℚ) (h : l ≠ []) :
    (cumsum l).getLastD 0 = l.sum := by
  have hlen : 0 < l.length := List.length_pos.mpr h
  rw [getLastD_eq_getD _ (cumsum_ne_nil l h), cumsum_length,
    cumsum_getD l (l.length - 1) (by omega)]
  have : l.length - 1 + 1 = l.length := by omega
  rw [this, List.take_length]

theorem descSort_perm (pdf : List ℚ) : List.Perm (descSort pdf) pdf :=
  (List.reverse_perm (npSort pdf)).trans (npSort_perm pdf)

theorem descSort_length (pdf : List ℚ) : (descSort pdf).length = pdf.length :=
  (descSort_perm pdf).length_eq

theorem descSort_sum (pdf : List ℚ) : (descSort pdf).sum = pdf.sum :=
  (descSort_perm pdf).sum_eq

theorem descSort_ne_nil (pdf : List ℚ) (h : pdf ≠ []) : descSort pdf ≠ [] := by
  intro hc
  apply h
  have := descSort_length pdf
  rw [hc] at this
  exact List.length_eq_zero.mp this.symm

/-- The descending sort is non-increasing. -/
theorem descSort_chain_ge (pdf : List ℚ) :
    (descSort pdf).Chain' (fun a b => b ≤ a) := by
  apply List.Pairwise.chain'
  rw [descSort, List.pairwise_reverse]
  exact npSort_sorted pdf

theorem normCdf_length (pdf : List ℚ) : (normCdf pdf).length = pdf.length := by
  rw [normCdf]
  simp [cumsum_length, descSort_length]

theorem normCdf_ne_nil (pdf : List ℚ) (h : pdf ≠ []) : normCdf pdf ≠ [] := by
  intro hc
  apply h
  have := normCdf_length pdf
  rw [hc] at this
  exact List.length_eq_zero.mp this.symm

theorem getLastD_map (g : ℚ → ℚ) (l : List ℚ) (h : l ≠ []) :
    (l.map g).getLastD 0 = g (l.getLastD 0) := by
  rw [List.getLastD_eq_getLast?, List.getLastD_eq_getLast?,
    List.getLast?_map]
  obtain ⟨a, ha⟩ : ∃ a, l.getLast? = some a :=
    ⟨l.getLast h, List.getLast?_eq_getLast l h⟩
  rw [ha]
  rfl

/-- `cdf /= cdf[-1]` makes the final entry of the normalized cumulative
sum exactly 1. -/
theorem normCdf_getLastD (pdf : List ℚ) (hsum : pdf.sum ≠ 0) :
    (normCdf pdf).getLastD 0 = 1 := by
  have hne : pdf ≠ [] := by
    intro hc
    apply hsum
    rw [hc]
    rfl
  rw [normCdf]
  rw [getLastD_map _ _ (cumsum_ne_nil _ (descSort_ne_nil pdf hne))]
  rw [cumsum_getLastD _ (descSort_ne_nil pdf hne), descSort_sum]
  exact div_self hsum

theorem sum_pos_of_pos (l : List ℚ) (hpos : ∀ q ∈ l, 0 < q) (hne : l ≠ []) :
    0 < l.sum :=
  List.sum_pos l hpos hne

/-- The cumulative sum of positive values is strictly increasing. -/
theorem cumsum_chain_lt (l : List ℚ) (hpos : ∀ q ∈ l, 0 < q) :
    (cumsum l).Chain' (· < ·) := by
  rw [List.chain'_iff_get]
  intro i hi
  rw [cumsum_length] at hi
  have hi1 : i + 1 < l.length := by omega
  have hg : ∀ (k : ℕ) (hk : k < l.length),
      (cumsum l).get ⟨k, by rw [cumsum_length]; exact hk⟩
        = (l.take (k + 1)).sum := by
    intro k hk
    have := cumsum_getD l k hk
    rw [List.getD_eq_getElem?_getD,
      List.getElem?_eq_getElem (by rw [cumsum_length]; exact hk),
      Option.getD_some] at this
    exact this
  rw [hg i (by omega), hg (i + 1) hi1]
  have hstep : (l.take (i + 1 + 1)).sum = (l.take (i + 1)).sum + l[i + 1] := by
    rw [List.take_succ, List.sum_append, List.getElem?_eq_getElem hi1]
    simp
  rw [hstep]
  have hmem : l[i + 1] ∈ l := List.getElem_mem hi1
  have hpos' : 0 < l[i + 1] := hpos _ hmem
  linarith

/-- The normalized cumulative distribution of positive values is
strictly increasing. -/
theorem normCdf_chain_lt (pdf : List ℚ) (hpos : ∀ q ∈ pdf, 0 < q)
    (hne : pdf ≠ []) : (normCdf pdf).Chain' (· < ·) := by
  have hpos' : ∀ q ∈ descSort pdf, 0 < q := by
    intro q hq
    exact hpos q ((descSort_perm pdf).mem_iff.mp hq)
  have hS : 0 < (cumsum (descSort pdf)).getLastD 0 := by
    rw [cumsum_getLastD _ (descSort_ne_nil pdf hne), descSort_sum]
    exact sum_pos_of_pos pdf hpos hne
  rw [normCdf, List.chain'_map]
  exact (cumsum_chain_lt _ hpos').imp
    (fun a b hab => by exact (div_lt_div_iff_of_pos_right hS).mpr hab)

end Makecorner

namespace Makecorner

theorem getLastD_cons_cons {α : Type} (a b : α) (l : List α) (d : α) :
    (a :: b :: l).getLastD d = (b :: l).getLastD d := by
  rw [List.getLastD_eq_getLast?, List.getLastD_eq_getLast?,
    List.getLast?_cons_cons]

theorem chain'_zip_fst {R : ℚ → ℚ → Prop} (l m : List ℚ)
    (h : l.Chain' R) : (l.zip m).Chain' (fun a b => R a.1 b.1) := by
  rw [List.chain'_iff_get] at h ⊢
  intro i hi
  have hlen : (l.zip m).length = min l.length m.length := List.length_zip l m
  rw [hlen] at hi
  have hil : i < l.length - 1 := by omega
  simp only [List.get_eq_getElem, List.getElem_zip]
  exact h i hil

theorem chain'_zip_snd {R : ℚ → ℚ → Prop} (l m : List ℚ)
    (h : m.Chain' R) : (l.zip m).Chain' (fun a b => R a.2 b.2) := by
  rw [List.chain'_iff_get] at h ⊢
  intro i hi
  have hlen : (l.zip m).length = min l.length m.length := List.length_zip l m
  rw [hlen] at hi
  have him : i < m.length - 1 := by omega
  simp only [List.get_eq_getElem, List.getElem_zip]
  exact h i him

theorem zip_headD_fst (l m : List ℚ) (hl : l ≠ []) (hm : m ≠ []) :
    ((l.zip m).headD (0, 0)).1 = l.headD 0 := by
  cases l with
  | nil => exact absurd rfl hl
  | cons a l' =>
    cases m with
    | nil => exact absurd rfl hm
    | cons b m' => rfl

theorem zip_getLastD_fst (l : List ℚ) :
    ∀ m : List ℚ, l.length = m.length → l ≠ [] →
      ((l.zip m).getLastD (0, 0)).1 = l.getLastD 0 := by
  induction l with
  | nil => intro m _ hl; exact absurd rfl hl
  | cons a l' ih =>
    intro m hlen hl
    cases m with
    | nil => simp at hlen
    | cons b m' =>
      cases l' with
      | nil =>
        have hm' : m' = [] := by
          have : m'.length = 0 := by simpa using hlen.symm
          exact List.length_eq_zero.mp this
        subst hm'
        rfl
      | cons a2 l2 =>
        cases m' with
        | nil => simp at hlen
        | cons b2 m2 =>
          rw [List.zip_cons_cons, List.zip_cons_cons, getLastD_cons_cons,
            getLastD_cons_cons]
          have h2 := ih (b2 :: m2) (by simpa using hlen) (by simp)
          rw [List.zip_cons_cons] at h2
          exact h2

theorem interp_cons_cons (z x0 f0 x1 f1 : ℚ) (ps : List (ℚ × ℚ)) :
    interp z ((x0, f0) :: (x1, f1) :: ps)
      = if z ≤ x0 then f0
        else if z ≤ x1 then f0 + (f1 - f0) * (z - x0) / (x1 - x0)
        else interp z ((x1, f1) :: ps) := rfl

/-- `np.interp` never exceeds the first `fp` value when `fp` is
non-increasing (and `xp` strictly increasing). -/
theorem interp_le_head (ps : List (ℚ × ℚ)) :
    ∀ z : ℚ, ps.Chain' (fun a b => a.1 < b.1) →
      ps.Chain' (fun a b => b.2 ≤ a.2) → ps ≠ [] →
      interp z ps ≤ (ps.headD (0, 0)).2 := by
  induction ps with
  | nil => intro z _ _ hne; exact absurd rfl hne
  | cons p ps ih =>
    intro z hx hf _
    obtain ⟨x0, f0⟩ := p
    cases ps with
    | nil => exact le_refl f0
    | cons q ps' =>
      obtain ⟨x1, f1⟩ := q
      rw [List.chain'_cons] at hx hf
      have hx01 : x0 < x1 := hx.1
      have hf10 : f1 ≤ f0 := hf.1
      have hd : 0 < x1 - x0 := by linarith
      rw [interp_cons_cons]
      show (if z ≤ x0 then f0
        else if z ≤ x1 then f0 + (f1 - f0) * (z - x0) / (x1 - x0)
        else interp z ((x1, f1) :: ps')) ≤ f0
      by_cases h0 : z ≤ x0
      · rw [if_pos h0]
      · rw [if_neg h0]
        push_neg at h0
        by_cases h1 : z ≤ x1
        · rw [if_pos h1]
          have hnum : (f1 - f0) * (z - x0) ≤ 0 := by nlinarith
          have hq := (div_le_iff hd).mpr
            (by linarith : (f1 - f0) * (z - x0) ≤ 0 * (x1 - x0))
          linarith
        · rw [if_neg h1]
          have hh := ih z hx.2 hf.2 (by simp)
          have hhead : (((x1, f1) :: ps').headD (0, 0)).2 = f1 := rfl
          rw [hhead] at hh
          exact le_trans hh hf10

/-- `np.interp` against an increasing `xp` and non-increasing `fp` is
non-increasing in the query point. -/
theorem interp_antitone (ps : List (ℚ × ℚ)) :
    ∀ x y : ℚ, ps.Chain' (fun a b => a.1 < b.1) →
      ps.Chain' (fun a b => b.2 ≤ a.2) → x ≤ y →
      interp y ps ≤ interp x ps := by
  induction ps with
  | nil => intro x y _ _ _; exact le_refl 0
  | cons p ps ih =>
    intro x y hx hf hxy
    obtain ⟨x0, f0⟩ := p
    cases ps with
    | nil => exact le_refl f0
    | cons q ps' =>
      obtain ⟨x1, f1⟩ := q
      rw [List.chain'_cons] at hx hf
      have hx01 : x0 < x1 := hx.1
      have hf10 : f1 ≤ f0 := hf.1
      have hd : 0 < x1 - x0 := by linarith
      have hne : x1 - x0 ≠ 0 := ne_of_gt hd
      rw [interp_cons_cons, interp_cons_cons]
      by_cases hy0 : y ≤ x0
      · rw [if_pos hy0, if_pos (le_trans hxy hy0)]
      · rw [if_neg hy0]
        push_neg at hy0
        by_cases hy1 : y ≤ x1
        · rw [if_pos hy1]
          by_cases hx0 : x ≤ x0
          · rw [if_pos hx0]
            have hnum : (f1 - f0) * (y - x0) ≤ 0 := by nlinarith
            have hq := (div_le_iff hd).mpr
              (by linarith : (f1 - f0) * (y - x0) ≤ 0 * (x1 - x0))
            linarith
          · rw [if_neg hx0]
            push_neg at hx0
            rw [if_pos (le_trans hxy hy1)]
            have hmul : (f1 - f0) * (y - x0) ≤ (f1 - f0) * (x - x0) := by
              nlinarith
            have hq : (f1 - f0) * (y - x0) / (x1 - x0)
                ≤ (f1 - f0) * (x - x0) / (x1 - x0) :=
              (div_le_div_iff_of_pos_right hd).mpr hmul
            linarith
        · rw [if_neg hy1]
          push_neg at hy1
          by_cases hx1 : x ≤ x1
          · have h1 : interp y ((x1, f1) :: ps') ≤ f1 := by
              have hh := interp_le_head ((x1, f1) :: ps') y hx.2 hf.2 (by simp)
              exact hh
            have h2 : f1 ≤ (if x ≤ x0 then f0
                else if x ≤ x1 then f0 + (f1 - f0) * (x - x0) / (x1 - x0)
                else interp x ((x1, f1) :: ps')) := by
              by_cases hx0 : x ≤ x0
              · rw [if_pos hx0]; exact hf10
              · rw [if_neg hx0, if_pos hx1]
                push_neg at hx0
                have hid : f0 + (f1 - f0) * (x - x0) / (x1 - x0) - f1
                    = (f0 - f1) * (x1 - x) / (x1 - x0) := by
                  field_simp
                  ring
                have hpos2 : 0 ≤ (f0 - f1) * (x1 - x) / (x1 - x0) :=
                  div_nonneg (by nlinarith) (by linarith)
                linarith
            exact le_trans h1 h2
          · push_neg at hx1
            rw [if_neg (by linarith : ¬ x ≤ x0),
              if_neg (by linarith : ¬ x ≤ x1)]
            exact ih x y hx.2 hf.2 hxy

end Makecorner

namespace Makecorner

/-- `np.interp` against a strictly increasing `xp` and strictly
decreasing `fp` is strictly decreasing between two query points inside
the `xp` range. -/
theorem interp_strict_anti (ps : List (ℚ × ℚ)) :
    ∀ x y : ℚ, ps.Chain' (fun a b => a.1 < b.1) →
      ps.Chain' (fun a b => b.2 < a.2) →
      (ps.headD (0, 0)).1 ≤ x → x < y → y ≤ (ps.getLastD (0, 0)).1 →
      interp y ps < interp x ps := by
  induction ps with
  | nil =>
    intro x y _ _ hh hxy hl
    have hh' : (0 : ℚ) ≤ x := hh
    have hl' : y ≤ (0 : ℚ) := hl
    linarith
  | cons p ps ih =>
    intro x y hx hf hh hxy hl
    obtain ⟨x0, f0⟩ := p
    cases ps with
    | nil =>
      exfalso
      have hh' : x0 ≤ x := hh
      have hl' : y ≤ x0 := hl
      linarith
    | cons q ps' =>
      obtain ⟨x1, f1⟩ := q
      rw [List.chain'_cons] at hx hf
      have hx01 : x0 < x1 := hx.1
      have hf10 : f1 < f0 := hf.1
      have hd : 0 < x1 - x0 := by linarith
      have hne : x1 - x0 ≠ 0 := ne_of_gt hd
      have hh' : x0 ≤ x := hh
      have hl' : y ≤ (((x1, f1) :: ps').getLastD (0, 0)).1 := by
        rw [getLastD_cons_cons] at hl
        exact hl
      rw [interp_cons_cons, interp_cons_cons]
      by_cases hy1 : y ≤ x1
      · have hy0 : ¬ y ≤ x0 := by linarith
        rw [if_neg hy0, if_pos hy1]
        by_cases hx0 : x ≤ x0
        · rw [if_pos hx0]
          have hxx0 : x = x0 := le_antisymm hx0 hh'
          have hnum : (f1 - f0) * (y - x0) < 0 :=
            mul_neg_of_neg_of_pos (by linarith) (by linarith)
          have hq := (div_lt_iff hd).mpr
            (by linarith : (f1 - f0) * (y - x0) < 0 * (x1 - x0))
          linarith
        · push_neg at hx0
          rw [if_neg (by linarith : ¬ x ≤ x0), if_pos (by linarith : x ≤ x1)]
          have hmul : (f1 - f0) * (y - x0) < (f1 - f0) * (x - x0) := by
            nlinarith
          have hq : (f1 - f0) * (y - x0) / (x1 - x0)
              < (f1 - f0) * (x - x0) / (x1 - x0) :=
            (div_lt_div_iff_of_pos_right hd).mpr hmul
          linarith
      · push_neg at hy1
        have hy0 : ¬ y ≤ x0 := by linarith
        rw [if_neg hy0, if_neg (by linarith : ¬ y ≤ x1)]
        by_cases hx1 : x ≤ x1
        · have htail : interp y ((x1, f1) :: ps') < interp x1 ((x1, f1) :: ps') := by
            apply ih x1 y hx.2 hf.2 (le_refl x1) hy1 hl'
          have hval : interp x1 ((x1, f1) :: ps') = f1 := by
            cases ps' with
            | nil => rfl
            | cons r rs =>
              obtain ⟨x2, f2⟩ := r
              rw [interp_cons_cons, if_pos (le_refl x1)]
          rw [hval] at htail
          have h2 : f1 ≤ (if x ≤ x0 then f0
              else if x ≤ x1 then f0 + (f1 - f0) * (x - x0) / (x1 - x0)
              else interp x ((x1, f1) :: ps')) := by
            by_cases hx0 : x ≤ x0
            · rw [if_pos hx0]; linarith
            · rw [if_neg hx0, if_pos hx1]
              push_neg at hx0
              have hid : f0 + (f1 - f0) * (x - x0) / (x1 - x0) - f1
                  = (f0 - f1) * (x1 - x) / (x1 - x0) := by
                field_simp
                ring
              have hpos2 : 0 ≤ (f0 - f1) * (x1 - x) / (x1 - x0) :=
                div_nonneg (by nlinarith) (by linarith)
              linarith
          exact lt_of_lt_of_le htail h2
        · push_neg at hx1
          rw [if_neg (by linarith : ¬ x ≤ x0), if_neg (by linarith : ¬ x ≤ x1)]
          exact ih x y hx.2 hf.2 (le_of_lt hx1) hxy hl'

end Makecorner

namespace Makecorner

theorem gridPdf_length (f : ℚ × ℚ → ℚ) (xg yg : List ℚ) :
    (gridPdf f xg yg).length = yg.length * xg.length := by
  induction yg with
  | nil => simp [gridPdf]
  | cons y ys ih =>
    rw [gridPdf, List.flatMap_cons, List.length_append, List.length_map]
    have ih' : (ys.flatMap (fun y => xg.map (fun x => f (x, y)))).length
        = ys.length * xg.length := ih
    rw [ih', List.length_cons]
    ring

theorem gridPdf_pos (f : ℚ × ℚ → ℚ) (xg yg : List ℚ)
    (hf : ∀ q, 0 < f q) : ∀ q ∈ gridPdf f xg yg, 0 < q := by
  intro q hq
  rw [gridPdf, List.mem_flatMap] at hq
  obtain ⟨y, _, hq⟩ := hq
  rw [List.mem_map] at hq
  obtain ⟨x, _, rfl⟩ := hq
  exact hf (x, y)

theorem gridPdf_getD (f : ℚ × ℚ → ℚ) (xg : List ℚ) :
    ∀ (yg : List ℚ) (mx my : ℕ), mx < xg.length → my < yg.length →
      (gridPdf f xg yg).getD (my * xg.length + mx) 0
        = f (xg.getD mx 0, yg.getD my 0) := by
  intro yg
  induction yg with
  | nil => intro mx my _ hy; cases hy
  | cons y ys ih =>
    intro mx my hx hy
    rw [gridPdf, List.flatMap_cons]
    cases my with
    | zero =>
      rw [Nat.zero_mul, Nat.zero_add]
      rw [List.getD_append _ _ _ _ (by rw [List.length_map]; exact hx)]
      rw [getD_map_of_lt _ _ _ 0 0 hx]
      rw [List.getD_cons_zero]
    | succ m =>
      have hL : (xg.map (fun x => f (x, y))).length = xg.length :=
        List.length_map _ _
      have harith : (m + 1) * xg.length = m * xg.length + xg.length := by ring
      rw [List.getD_append_right _ _ _ _
        (by rw [hL]; omega)]
      rw [hL]
      have hidx : (m + 1) * xg.length + mx - xg.length
          = m * xg.length + mx := by omega
      rw [hidx, List.getD_cons_succ]
      exact ih mx m hx (by simpa using hy)

/-- **C5.** On 2-D panels, contour thresholds are computed iff
`contour_levels` is set.  With it unset no panel carries contours; when
it is set, each 2-D panel's thresholds are `contourLevelsCalc` of the
KDE evaluated on the 100×100 meshgrid spanning both variables' display
bounds, with the density values sorted descending, their cumulative sum
normalized so its final entry is exactly 1, every requested level
inverse-interpolated from cumulative probability to density value, and
the thresholds handed to the contour renderer sorted ascending. -/
theorem corner_contours_c5 (kde : Kde) (pd : List (String × VariableSpec))
    (bins : ℕ) (sb : Bool) (L : List ℚ)
    (hkde : ∀ dx dy q, 0 < kde dx dy q) :
    (∀ p ∈ corner kde pd bins sb none, p.contours = none)
    ∧ (∀ p ∈ corner kde pd bins sb (some L),
        (isDiagPanel p = true → p.contours = none)
        ∧ (∀ i j, p.kind = PanelKind.offdiag i j →
            p.contours = some (contourLevelsCalc (panelPdf kde pd i j) L)
            ∧ (panelPdf kde pd i j).length = 100 * 100
            ∧ (∀ mx my, mx < 100 → my < 100 →
                (panelPdf kde pd i j).getD (my * 100 + mx) 0
                  = kde (pd.getD i defaultVar).2.data
                      (pd.getD (i + 1 + j) defaultVar).2.data
                      ((linspace (pd.getD i defaultVar).2.plot_bounds.1
                          (pd.getD i defaultVar).2.plot_bounds.2 100).getD mx 0,
                       (linspace (pd.getD (i + 1 + j) defaultVar).2.plot_bounds.1
                          (pd.getD (i + 1 + j) defaultVar).2.plot_bounds.2
                          100).getD my 0))
            ∧ (normCdf (panelPdf kde pd i j)).getLastD 0 = 1
            ∧ (contourLevelsCalc (panelPdf kde pd i j) L).Sorted (· ≤ ·)
            ∧ List.Perm (contourLevelsCalc (panelPdf kde pd i j) L)
                (L.map (fun l => interp l
                  ((normCdf (panelPdf kde pd i j)).zip
                    (descSort (panelPdf kde pd i j))))))) := by
  constructor
  · intro p hp
    obtain ⟨i, hi, hcase | ⟨j, hj, hcase⟩⟩ := mem_corner kde pd bins sb none hp
    · subst hcase; rfl
    · subst hcase; rfl
  · intro p hp
    obtain ⟨i, hi, hcase | ⟨j, hj, hcase⟩⟩ :=
      mem_corner kde pd bins sb (some L) hp
    · subst hcase
      constructor
      · intro _; rfl
      · intro i' j' h
        exact absurd h (by simp [diagPanel])
    · subst hcase
      constructor
      · intro h
        exact absurd h (by simp [isDiagPanel, offdiagPanel])
      · intro i' j' h
        obtain ⟨rfl, rfl⟩ : i = i' ∧ j = j' := by
          injection h with h1 h2
          exact ⟨h1, h2⟩
        have hpos : ∀ q ∈ panelPdf kde pd i j, 0 < q :=
          gridPdf_pos _ _ _ (fun q => hkde _ _ q)
        have hlen : (panelPdf kde pd i j).length = 100 * 100 := by
          rw [panelPdf, gridPdf_length, linspace_length, linspace_length]
        have hne : panelPdf kde pd i j ≠ [] := by
          apply List.length_pos.mp
          rw [hlen]
          norm_num
        refine ⟨rfl, hlen, ?_, ?_, npSort_sorted _, npSort_perm _⟩
        · intro mx my hmx hmy
          have h := gridPdf_getD
            (kde (pd.getD i defaultVar).2.data
              (pd.getD (i + 1 + j) defaultVar).2.data)
            (linspace (pd.getD i defaultVar).2.plot_bounds.1
              (pd.getD i defaultVar).2.plot_bounds.2 100)
            (linspace (pd.getD (i + 1 + j) defaultVar).2.plot_bounds.1
              (pd.getD (i + 1 + j) defaultVar).2.plot_bounds.2 100)
            mx my (by rw [linspace_length]; exact hmx)
            (by rw [linspace_length]; exact hmy)
          rw [linspace_length] at h
          exact h
        · exact normCdf_getLastD _
            (ne_of_gt (sum_pos_of_pos _ hpos hne))

/-- Witness for C5: with `contour_levels = None`, a concrete panel
carries no contours. -/
theorem corner_contours_c5_witness :
    (diagPanel 3 0 ⟨[1, 2], (0, 3), "x"⟩ 1 false).contours = none :=
  (corner_contours_c5 kdeW pdW 1 false [1 / 2]
    (fun _ _ _ => one_pos)).1
    (diagPanel 3 0 ⟨[1, 2], (0, 3), "x"⟩ 1 false) (by decide)

end Makecorner

namespace Makecorner

/-- **C6.** `contourLevelsCalc` produces exactly two thresholds for
`contour_levels = [0.68, 0.95]`; the inverse-interpolated threshold is
monotonically non-increasing in the requested probability level, and for
a non-degenerate density grid (positive values, pairwise distinct, no
single cell holding 68% of the mass) the threshold of level 0.68 is
strictly greater than the threshold of level 0.95. -/
theorem contour_thresholds_c6 (pdf : List ℚ) (l1 l2 : ℚ)
    (hpos : ∀ q ∈ pdf, 0 < q) (hne : pdf ≠ []) (hl : l1 ≤ l2)
    (hdistinct : (descSort pdf).Chain' (fun a b => b < a))
    (hhead : (normCdf pdf).headD 0 ≤ 68 / 100) :
    (contourLevelsCalc pdf [68 / 100, 95 / 100]).length = 2
    ∧ interp l2 ((normCdf pdf).zip (descSort pdf))
        ≤ interp l1 ((normCdf pdf).zip (descSort pdf))
    ∧ interp (95 / 100) ((normCdf pdf).zip (descSort pdf))
        < interp (68 / 100) ((normCdf pdf).zip (descSort pdf)) := by
  have hlen_eq : (normCdf pdf).length = (descSort pdf).length := by
    rw [normCdf_length, descSort_length]
  have hncne : normCdf pdf ≠ [] := normCdf_ne_nil pdf hne
  have hdsne : descSort pdf ≠ [] := descSort_ne_nil pdf hne
  have hxchain : ((normCdf pdf).zip (descSort pdf)).Chain'
      (fun a b => a.1 < b.1) :=
    chain'_zip_fst _ _ (normCdf_chain_lt pdf hpos hne)
  have hfweak : ((normCdf pdf).zip (descSort pdf)).Chain'
      (fun a b => b.2 ≤ a.2) :=
    chain'_zip_snd _ _ (descSort_chain_ge pdf)
  have hfstrict : ((normCdf pdf).zip (descSort pdf)).Chain'
      (fun a b => b.2 < a.2) :=
    chain'_zip_snd _ _ hdistinct
  have hsum : pdf.sum ≠ 0 := ne_of_gt (sum_pos_of_pos pdf hpos hne)
  have hlast : (((normCdf pdf).zip (descSort pdf)).getLastD (0, 0)).1 = 1 := by
    rw [zip_getLastD_fst _ _ hlen_eq hncne, normCdf_getLastD pdf hsum]
  have hheadz : (((normCdf pdf).zip (descSort pdf)).headD (0, 0)).1
      = (normCdf pdf).headD 0 := zip_headD_fst _ _ hncne hdsne
  refine ⟨?_, ?_, ?_⟩
  · rw [contourLevelsCalc, npSort_length, List.length_map]
    rfl
  · exact interp_antitone _ l1 l2 hxchain hfweak hl
  · apply interp_strict_anti _ (68 / 100) (95 / 100) hxchain hfstrict
    · rw [hheadz]; exact hhead
    · norm_num
    · rw [hlast]; norm_num

/-- Witness for C6 at the concrete density grid `[2, 4, 1, 3]` with
query levels `1/4 ≤ 1/2`. -/
theorem contour_thresholds_c6_witness :
    (contourLevelsCalc [(2 : ℚ), 4, 1, 3] [68 / 100, 95 / 100]).length = 2
    ∧ interp (1 / 2) ((normCdf [(2 : ℚ), 4, 1, 3]).zip
        (descSort [(2 : ℚ), 4, 1, 3]))
        ≤ interp (1 / 4) ((normCdf [(2 : ℚ), 4, 1, 3]).zip
        (descSort [(2 : ℚ), 4, 1, 3]))
    ∧ interp (95 / 100) ((normCdf [(2 : ℚ), 4, 1, 3]).zip
        (descSort [(2 : ℚ), 4, 1, 3]))
        < interp (68 / 100) ((normCdf [(2 : ℚ), 4, 1, 3]).zip
        (descSort [(2 : ℚ), 4, 1, 3])) := by
  apply contour_thresholds_c6 [(2 : ℚ), 4, 1, 3] (1 / 4) (1 / 2)
  · decide
  · decide
  · norm_num
  · have h1 : descSort [(2 : ℚ), 4, 1, 3] = [4, 3, 2, 1] := by decide
    rw [h1]
    norm_num [List.chain'_cons, List.chain'_singleton]
  · have h1 : descSort [(2 : ℚ), 4, 1, 3] = [4, 3, 2, 1] := by decide
    rw [normCdf, h1]
    norm_num [cumsum, List.getLastD_eq_getLast?]

end Makecorner

namespace Makecorner

theorem readArr_append (σ τ : Store) (r : ℕ) (h : r < σ.length) :
    readArr (σ ++ τ) r = readArr σ r := by
  rw [readArr, readArr, List.getD_append _ _ _ _ h]

theorem readArr_new (σ : Store) (v : List ℚ) :
    readArr (σ ++ [v]) σ.length = v := by
  rw [readArr, List.getD_append_right _ _ _ _ (le_refl _)]
  simp

/-- `getBounds` never writes an existing array: every store entry
present before the call reads the same afterwards. -/
theorem getBoundsSt_frame (σ : Store) (r r' : ℕ) (h : r' < σ.length) :
    readArr (getBoundsSt σ r).1 r' = readArr σ r' := by
  simp only [getBoundsSt, alloc]
  rw [readArr_append _ _ _ (by simp; omega),
    readArr_append _ _ _ (by simp; omega),
    readArr_append _ _ _ h]

theorem getBoundsSt_length (σ : Store) (r : ℕ) :
    σ.length ≤ (getBoundsSt σ r).1.length := by
  simp only [getBoundsSt, alloc]
  simp

/-- The store-passing `getBounds` computes the same triple as the pure
embedding on the array's value. -/
theorem getBoundsSt_val (σ : Store) (r : ℕ) :
    (getBoundsSt σ r).2 = getBounds (readArr σ r) := by
  have h1 : readArr (σ ++ [readArr σ r]) σ.length = readArr σ r :=
    readArr_new σ _
  simp only [getBoundsSt, alloc, getBounds]
  rw [h1]
  have h2 : readArr ((σ ++ [readArr σ r]) ++ [npSort (readArr σ r)])
      σ.length = readArr σ r := by
    rw [readArr_append _ _ _ (by simp), h1]
  have h3 : readArr ((σ ++ [readArr σ r]) ++ [npSort (readArr σ r)])
      (σ ++ [readArr σ r]).length = npSort (readArr σ r) :=
    readArr_new _ _
  rw [h2, h3]
  have h4 : readArr (((σ ++ [readArr σ r]) ++ [npSort (readArr σ r)])
      ++ [npSort (readArr σ r)]) σ.length = readArr σ r := by
    rw [readArr_append _ _ _ (by simp), h2]
  have h5 : readArr (((σ ++ [readArr σ r]) ++ [npSort (readArr σ r)])
      ++ [npSort (readArr σ r)])
      ((σ ++ [readArr σ r]) ++ [npSort (readArr σ r)]).length
      = npSort (readArr σ r) := readArr_new _ _
  rw [h4, h5]

theorem diagPanelSt_frame (σ : Store) (ndim i : ℕ) (v : VariableRef)
    (bins : ℕ) (sb : Bool) (r : ℕ) (h : r < σ.length) :
    readArr (diagPanelSt σ ndim i v bins sb).1 r = readArr σ r := by
  rw [diagPanelSt]
  split
  · exact getBoundsSt_frame σ v.dataRef r h
  · rfl

theorem diagPanelSt_length (σ : Store) (ndim i : ℕ) (v : VariableRef)
    (bins : ℕ) (sb : Bool) :
    σ.length ≤ (diagPanelSt σ ndim i v bins sb).1.length := by
  rw [diagPanelSt]
  split
  · exact getBoundsSt_length σ v.dataRef
  · exact le_refl _

/-- The store-passing diagonal panel equals the pure one built from the
store-resident values. -/
theorem diagPanelSt_val (σ : Store) (ndim i : ℕ) (v : VariableRef)
    (bins : ℕ) (sb : Bool) :
    (diagPanelSt σ ndim i v bins sb).2
      = diagPanel ndim i (specOf σ v) bins sb := by
  by_cases hsb : sb
  · simp [diagPanelSt, diagPanel, hsb, getBoundsSt_val, specOf]
  · simp [diagPanelSt, diagPanel, hsb, specOf]

end Makecorner

namespace Makecorner

theorem flatMap_congr_left {α β : Type} (l : List α) (f g : α → List β)
    (h : ∀ a ∈ l, f a = g a) : l.flatMap f = l.flatMap g := by
  induction l with
  | nil => rfl
  | cons a t ih =>
    rw [List.flatMap_cons, List.flatMap_cons, h a (by simp),
      ih (fun b hb => h b (by simp [hb]))]

/-- Invariant of the store-passing composer's loop: every pre-existing
store entry is preserved, the store only grows, and the accumulated
panels are exactly the pure blocks over the initial store's values. -/
theorem cornerSt_loop (kde : Kde) (pd : List (String × VariableRef))
    (bins : ℕ) (sb : Bool) (lvls : Option (List ℚ)) (σ0 : Store)
    (hvalid : ∀ i, i < pd.length →
      (pd.getD i defaultVarRef).2.dataRef < σ0.length) :
    ∀ (is : List ℕ) (σ : Store) (ps : List Panel),
      (∀ r, r < σ0.length → readArr σ r = readArr σ0 r) →
      σ0.length ≤ σ.length →
      (∀ i ∈ is, i < pd.length) →
      (∀ r, r < σ0.length →
        readArr (is.foldl (cornerStep kde pd bins sb lvls) (σ, ps)).1 r
          = readArr σ0 r)
      ∧ σ0.length ≤ (is.foldl (cornerStep kde pd bins sb lvls) (σ, ps)).1.length
      ∧ (is.foldl (cornerStep kde pd bins sb lvls) (σ, ps)).2
          = ps ++ is.flatMap (cornerBlock kde pd bins sb lvls σ0) := by
  intro is
  induction is with
  | nil =>
    intro σ ps hfr hlen _
    exact ⟨hfr, hlen, by simp⟩
  | cons i is' ih =>
    intro σ ps hfr hlen hmem
    have hi : i < pd.length := hmem i (by simp)
    have hspecσ : ∀ k, k < pd.length →
        specOf σ (pd.getD k defaultVarRef).2
          = specOf σ0 (pd.getD k defaultVarRef).2 := by
      intro k hk
      rw [specOf, specOf, hfr _ (hvalid k hk)]
    have hspec : ∀ k, k < pd.length →
        specOf (diagPanelSt σ pd.length i
            (pd.getD i defaultVarRef).2 bins sb).1
            (pd.getD k defaultVarRef).2
          = specOf σ0 (pd.getD k defaultVarRef).2 := by
      intro k hk
      rw [specOf, specOf,
        diagPanelSt_frame _ _ _ _ _ _ _ (lt_of_lt_of_le (hvalid k hk) hlen),
        hfr _ (hvalid k hk)]
    have hstep : cornerStep kde pd bins sb lvls (σ, ps) i
        = ((diagPanelSt σ pd.length i
              (pd.getD i defaultVarRef).2 bins sb).1,
           ps ++ cornerBlock kde pd bins sb lvls σ0 i) := by
      simp only [cornerStep, cornerBlock]
      refine congrArg (Prod.mk _) ?_
      rw [diagPanelSt_val, hspecσ i hi]
      refine congrArg (ps ++ ·) ?_
      refine congrArg (List.cons _) ?_
      apply List.map_congr_left
      intro j hj
      rw [List.mem_range] at hj
      rw [hspec i hi, hspec (i + 1 + j) (by omega)]
    rw [List.foldl_cons, hstep]
    obtain ⟨hA, hB, hC⟩ := ih
      ((diagPanelSt σ pd.length i (pd.getD i defaultVarRef).2 bins sb).1)
      (ps ++ cornerBlock kde pd bins sb lvls σ0 i)
      (fun r hr => by
        rw [diagPanelSt_frame _ _ _ _ _ _ _ (lt_of_lt_of_le hr hlen)]
        exact hfr r hr)
      (le_trans hlen (diagPanelSt_length _ _ _ _ _ _))
      (fun k hk => hmem k (by simp [hk]))
    refine ⟨hA, hB, ?_⟩
    rw [hC, List.flatMap_cons, List.append_assoc]

/-- **C8.** `corner` does not mutate its `plot_data` input: after the
call, every variable's sample array reads the same as before (its
`plot_bounds` pair and `label` are immutable fields of the input
records), every other pre-existing array is also untouched, the panels
produced equal the pure `corner` applied to the initial values, and
`getBounds` itself preserves every pre-existing array — it works on a
fresh `np.array` copy and `np.sort` returns new arrays. -/
theorem corner_no_mutation_c8 (kde : Kde)
    (pdr : List (String × VariableRef)) (bins : ℕ) (sb : Bool)
    (lvls : Option (List ℚ)) (σ : Store)
    (hvalid : ∀ i, i < pdr.length →
      (pdr.getD i defaultVarRef).2.dataRef < σ.length) :
    (∀ r, r < σ.length →
      readArr (cornerSt kde pdr bins sb lvls σ).1 r = readArr σ r)
    ∧ (∀ i, i < pdr.length →
        readArr (cornerSt kde pdr bins sb lvls σ).1
            (pdr.getD i defaultVarRef).2.dataRef
          = readArr σ (pdr.getD i defaultVarRef).2.dataRef)
    ∧ (cornerSt kde pdr bins sb lvls σ).2
        = corner kde (pdr.map (fun nv => (nv.1, specOf σ nv.2))) bins sb lvls
    ∧ (∀ r r', r' < σ.length →
        readArr (getBoundsSt σ r).1 r' = readArr σ r') := by
  obtain ⟨hA, hB, hC⟩ := cornerSt_loop kde pdr bins sb lvls σ hvalid
    (List.range pdr.length) σ [] (fun r _ => rfl) (le_refl _)
    (fun i hi => List.mem_range.mp hi)
  refine ⟨?_, ?_, ?_, fun r r' h => getBoundsSt_frame σ r r' h⟩
  · intro r hr
    exact hA r hr
  · intro i hi
    exact hA _ (hvalid i hi)
  · show ((List.range pdr.length).foldl
        (cornerStep kde pdr bins sb lvls) (σ, [])).2 = _
    rw [hC, List.nil_append]
    simp only [corner, List.length_map]
    apply flatMap_congr_left
    intro i hmem
    rw [List.mem_range] at hmem
    have hgetD : ∀ k, k < pdr.length →
        ((pdr.map (fun nv => (nv.1, specOf σ nv.2))).getD k defaultVar).2
          = specOf σ (pdr.getD k defaultVarRef).2 := by
      intro k hk
      rw [getD_map_of_lt (fun nv => (nv.1, specOf σ nv.2)) pdr k
        defaultVarRef defaultVar hk]
    rw [cornerBlock]
    congr 1
    · rw [hgetD i hmem]
    · apply List.map_congr_left
      intro j hj
      rw [List.mem_range] at hj
      rw [hgetD i hmem, hgetD (i + 1 + j) (by omega)]

/-- Witness for C8: a one-variable collection whose samples live at
store index 0; the array reads unchanged after the call. -/
theorem corner_no_mutation_c8_witness :
    readArr (cornerSt kdeW [("x", ⟨0, (0, 1), "x"⟩)] 2 true none
        [[1, 2]]).1 0
      = readArr [[1, 2]] 0 :=
  (corner_no_mutation_c8 kdeW [("x", ⟨0, (0, 1), "x"⟩)] 2 true none
    [[1, 2]]
    (by
      intro i hi
      have hi' : i < 1 := by simpa using hi
      have h0 : i = 0 := by omega
      subst h0
      decide)).1 0 (by decide)

end Makecorner
